import Mathlib

/-!
# Collapse RCS: a shallow embedding of `collapse_rcs.go`

The Go program simulates independent two-amplitude "qubits", pushes them
through rounds of a deterministic phase gate, collapses each of them to a bit
by a threshold on `|Alpha|^2`, and writes the resulting bitstrings to a CSV
file.

The arithmetic is embedded twice. The definitions on `Qubit` take `complex128`
for the field of exact complex numbers and `float64` for the field of exact
real numbers (no rounding, no infinities, no NaN), which is the reading that
the statements on amplitudes stipulate. The definitions on `Qubit64` follow the
IEEE 754 binary64 arithmetic that the program runs; they decide what the
program outputs where rounding matters, as it does at the threshold of
`CollapseBit` and at the zero test of `Normalize`.

Conventions of the embedding:

* a method with a pointer receiver is a function that returns the state of the
  receiver after the call (together with the returned value, if there is one);
* a slice is a list, `s[i] = v` is `List.set` and a method call on `s[i]` is
  `List.modify`;
* Go's `int` is a 64-bit two's-complement integer: sums of indices are reduced
  with `wrapInt`;
* `byte` is `Char` and a Go `string` is a `String`.
-/

namespace CollapseRCS

/-! ## The qubit kernel -/

/-- Qubit structure with alpha and beta amplitudes (`type Qubit struct`). -/
structure Qubit where
  Alpha : ℂ
  Beta : ℂ

/-- The squared norm `|Alpha|^2 + |Beta|^2` of a qubit state. -/
noncomputable def Qubit.normSquared (q : Qubit) : ℝ :=
  Complex.abs q.Alpha ^ 2 + Complex.abs q.Beta ^ 2

/-- The local variable `norm` of `Normalize`:
`math.Sqrt(cmplx.Abs(q.Alpha)*cmplx.Abs(q.Alpha) + cmplx.Abs(q.Beta)*cmplx.Abs(q.Beta))`. -/
noncomputable def Qubit.norm (q : Qubit) : ℝ :=
  Real.sqrt (Complex.abs q.Alpha * Complex.abs q.Alpha + Complex.abs q.Beta * Complex.abs q.Beta)

/-- `func (q *Qubit) Normalize()`: the receiver after the call. -/
noncomputable def Qubit.Normalize (q : Qubit) : Qubit :=
  let norm := q.norm
  if norm = 0 then
    { Alpha := 1, Beta := 0 }
  else
    { Alpha := q.Alpha / (⟨norm, 0⟩ : ℂ), Beta := q.Beta / (⟨norm, 0⟩ : ℂ) }

/-- `func (q *Qubit) ApplyDeterministicGate(theta float64)`: the receiver after
the call. -/
noncomputable def Qubit.ApplyDeterministicGate (q : Qubit) (theta : ℝ) : Qubit :=
  let phase := Complex.exp (⟨0, theta⟩ : ℂ)
  let q1 : Qubit := { q with Alpha := q.Alpha * phase }
  let q2 : Qubit := { q1 with Beta := q1.Beta * (starRingEnd ℂ) phase }
  q2.Normalize

/-- `func (q *Qubit) CollapseBit() byte`: the returned byte together with the
receiver after the call (the body assigns no field). -/
noncomputable def Qubit.CollapseBit (q : Qubit) : Char × Qubit :=
  let realPart := (q.Alpha * (starRingEnd ℂ) q.Alpha).re
  if realPart ≥ 0.5 then
    ('0', q)
  else
    ('1', q)

/-! ## The sample generator -/

/-- Go's `int` on a 64-bit platform: the two's-complement value that a
mathematical integer is reduced to by `+`. -/
def wrapInt (n : Int) : Int :=
  (n + 2 ^ 63) % 2 ^ 64 - 2 ^ 63

/-- The first loop of `collapseOneSample` on `state := make([]Qubit, qCount)`:
every slot is assigned its initial qubit and normalised in place. -/
noncomputable def initState (qCount : Nat) : List Qubit :=
  let state : List Qubit := List.replicate qCount { Alpha := 0, Beta := 0 }
  (List.range state.length).foldl
    (fun (st : List Qubit) (i : Nat) =>
      let angle : ℝ := 2 * Real.pi * (i : ℝ) / (qCount : ℝ)
      let st1 := st.set i { Alpha := Complex.exp (⟨0, angle⟩ : ℂ), Beta := (⟨0, 1⟩ : ℂ) }
      st1.modify Qubit.Normalize i)
    state

/-- The angle `theta := 2 * math.Pi * float64(d+i) / float64(depth+qCount)` of
the evolution loop; both sums are `int` additions. -/
noncomputable def gateTheta (qCount depth d i : Nat) : ℝ :=
  2 * Real.pi * ((wrapInt ((d : Int) + (i : Int)) : Int) : ℝ)
    / ((wrapInt ((depth : Int) + (qCount : Int)) : Int) : ℝ)

/-- The inner loop `for i := range state` of the evolution, for round `d`. -/
noncomputable def evolveRound (qCount depth d : Nat) (state : List Qubit) : List Qubit :=
  (List.range state.length).foldl
    (fun (st : List Qubit) (i : Nat) =>
      let theta := gateTheta qCount depth d i
      st.modify (fun q => q.ApplyDeterministicGate theta) i)
    state

/-- The outer loop `for d := 0; d < depth; d++` of the evolution. -/
noncomputable def evolve (qCount depth : Nat) (state : List Qubit) : List Qubit :=
  (List.range depth).foldl (fun st d => evolveRound qCount depth d st) state

/-- The last loop of `collapseOneSample`: every qubit (a copy, `q := range
state`) is collapsed and its byte appended to the `strings.Builder`. -/
noncomputable def collapseAll (state : List Qubit) : String :=
  state.foldl (fun (b : String) (q : Qubit) => b.push q.CollapseBit.1) ""

/-- The state of the qubit array when the collapse loop starts. -/
noncomputable def evolvedState (qCount depth : Nat) : List Qubit :=
  evolve qCount depth (initState qCount)

/-- `func collapseOneSample(qCount, depth int) string`, for `qCount ≥ 0`. -/
noncomputable def collapseOneSample (qCount depth : Nat) : String :=
  collapseAll (evolvedState qCount depth)

/-! ### Reordered and single-qubit evolution (stated from the specification) -/

/-- One evolution round that visits the qubits in the order `order` instead of
index order; each visit is the loop body of `evolveRound`. -/
noncomputable def evolveRoundInOrder (qCount depth d : Nat) (order : List Nat)
    (state : List Qubit) : List Qubit :=
  order.foldl
    (fun (st : List Qubit) (i : Nat) =>
      st.modify (fun q => q.ApplyDeterministicGate (gateTheta qCount depth d i)) i)
    state

/-- The evolution rounds `d = 0 .. depth-1` in order, round `d` visiting the
qubits in the order `order d`. -/
noncomputable def evolveInOrder (qCount depth : Nat) (order : Nat → List Nat)
    (state : List Qubit) : List Qubit :=
  (List.range depth).foldl (fun st d => evolveRoundInOrder qCount depth d (order d) st) state

/-- A single qubit initialised with index `i`. -/
noncomputable def initQubit (qCount i : Nat) : Qubit :=
  Qubit.Normalize
    { Alpha := Complex.exp (⟨0, 2 * Real.pi * (i : ℝ) / (qCount : ℝ)⟩ : ℂ), Beta := (⟨0, 1⟩ : ℂ) }

/-- A single qubit initialised with index `i` and passed alone through the
gates `theta = 2*pi*(d+i)/(depth+qubitCount)` for `d = 0 .. depth-1`. -/
noncomputable def singleQubit (qCount depth i : Nat) : Qubit :=
  (List.range depth).foldl
    (fun (q : Qubit) (d : Nat) =>
      q.ApplyDeterministicGate (2 * Real.pi * ((d : ℝ) + (i : ℝ)) / ((depth : ℝ) + (qCount : ℝ))))
    (initQubit qCount i)

/-- A single qubit initialised with index `i` and passed alone through the
gates with the angles that the program computes. -/
noncomputable def singleQubitTrace (qCount depth i : Nat) : Qubit :=
  (List.range depth).foldl
    (fun (q : Qubit) (d : Nat) => q.ApplyDeterministicGate (gateTheta qCount depth d i))
    (initQubit qCount i)

/-- A qubit whose two amplitudes both have squared modulus one half. -/
def Qubit.Balanced (q : Qubit) : Prop :=
  Complex.abs q.Alpha ^ 2 = 1 / 2 ∧ Complex.abs q.Beta ^ 2 = 1 / 2

/-! ## The sample collection of `main` -/

/-- The line printed by `fmt.Printf("Progress: %d/%d samples\n", i, samples)`. -/
def progressLine (i samples : Nat) : String :=
  "Progress: " ++ toString i ++ "/" ++ toString samples ++ " samples\n"

/-- The loop of `main` that fills `allBitstrings := make([]string, samples)`:
the slice after the loop and the progress lines printed on the way. -/
noncomputable def mainLoop (qCount depth samples : Nat) : List String × List String :=
  let allBitstrings : List String := List.replicate samples ""
  (List.range samples).foldl
    (fun (acc : List String × List String) (i : Nat) =>
      let bitstr := collapseOneSample qCount depth
      let all := acc.1.set i bitstr
      if i % 500 = 0 then
        (all, acc.2 ++ [progressLine i samples])
      else
        (all, acc.2))
    (allBitstrings, [])

/-- The sample collection as the specification describes it: the sample
generator is invoked exactly `sampleCount` times, in call order, with no
reporting. -/
noncomputable def GenerateCollection (qCount depth sampleCount : Nat) : List String :=
  (List.range sampleCount).map (fun _ => collapseOneSample qCount depth)

/-! ## The CSV sink -/

/-- The errors that the file system and the CSV writer can report. -/
inductive GoError where
  | createFailed
  | writeFailed
  | flushFailed
  deriving DecidableEq

/-- What the environment does to the sink: whether `os.Create` fails for a file
name, whether the `k`-th call of `writer.Write` (counted from zero) fails,
whether the final `writer.Flush` fails, and how many of the accepted records
have reached the file when a failing flush stops. -/
structure SinkBehaviour where
  createFails : String → Bool
  writeFails : Nat → Bool
  flushFails : Bool
  flushedBeforeFailure : Nat

/-- The state of a `csv.Writer`: the records handed to `Write` so far, in call
order, and those of them that the writer accepted. -/
structure CsvWriter where
  handed : List (List String)
  accepted : List (List String)
  deriving DecidableEq

/-- The value of `csv.NewWriter(f)`. -/
def CsvWriter.new : CsvWriter :=
  { handed := [], accepted := [] }

/-- The call `writer.Write(record)`: the returned error and the writer after
the call. A failing call accepts nothing. -/
def CsvWriter.Write (env : SinkBehaviour) (w : CsvWriter) (record : List String) :
    Option GoError × CsvWriter :=
  if env.writeFails w.handed.length then
    (some GoError.writeFailed, { w with handed := w.handed ++ [record] })
  else
    (none, { handed := w.handed ++ [record], accepted := w.accepted ++ [record] })

/-- The call `writer.Flush()`: the records that reach the file. `Flush` returns
nothing; a failing flush leaves in the file the records written before it
stopped. -/
def CsvWriter.Flush (env : SinkBehaviour) (w : CsvWriter) : List (List String) :=
  if env.flushFails then w.accepted.take env.flushedBeforeFailure else w.accepted

/-- The outcome of `writeCSV`: the returned `error` (`none` is `nil`), the
writer when the function returns, and the records that the file has received
once the deferred `writer.Flush()` and `f.Close()` have run. -/
structure WriteOutcome where
  err : Option GoError
  writer : CsvWriter
  file : List (List String)
  deriving DecidableEq

/-- `func writeCSV(filename string, bitstrings []string) error`. -/
def writeCSV (env : SinkBehaviour) (filename : String) (bitstrings : List String) :
    WriteOutcome :=
  if env.createFails filename then
    { err := some GoError.createFailed, writer := CsvWriter.new, file := [] }
  else
    let writer := CsvWriter.new
    let writer := (writer.Write env ["Bitstring"]).2
    let writer := bitstrings.foldl (fun (w : CsvWriter) (b : String) => (w.Write env [b]).2) writer
    { err := none, writer := writer, file := writer.Flush env }

/-- The complete table for a list of bitstrings: the header record followed by
one one-field record per bitstring, in order. -/
def completeTable (bitstrings : List String) : List (List String) :=
  ["Bitstring"] :: bitstrings.map (fun b => [b])

/-- An environment in which the second call of `Write` fails. -/
def secondWriteFails : SinkBehaviour :=
  { createFails := fun _ => false, writeFails := fun k => k == 1, flushFails := false,
    flushedBeforeFailure := 0 }

/-- An environment in which nothing fails. -/
def nothingFails : SinkBehaviour :=
  { createFails := fun _ => false, writeFails := fun _ => false, flushFails := false,
    flushedBeforeFailure := 0 }

/-! ## Matrices acting on a qubit -/

/-- A 2x2 complex matrix applied to the column vector `(Alpha, Beta)`. -/
noncomputable def applyMatrix (U : Matrix (Fin 2) (Fin 2) ℂ) (q : Qubit) : Qubit :=
  { Alpha := U 0 0 * q.Alpha + U 0 1 * q.Beta, Beta := U 1 0 * q.Alpha + U 1 1 * q.Beta }

/-- The diagonal matrix of the two factors that `ApplyDeterministicGate theta`
multiplies the amplitudes with: `phase` and `cmplx.Conj(phase)`. -/
noncomputable def gateMatrix (theta : ℝ) : Matrix (Fin 2) (Fin 2) ℂ :=
  Matrix.of ![![Complex.exp (⟨0, theta⟩ : ℂ), 0],
    ![0, (starRingEnd ℂ) (Complex.exp (⟨0, theta⟩ : ℂ))]]

/-! ## The float64 arithmetic of the program

The definitions above take `float64` for the real numbers. The definitions
below follow the arithmetic that the program runs: IEEE 754 binary64 with
rounding to nearest, ties to even, every operation rounded once.

* `F64` holds the finite values; the sign of zero is not kept, since no
  operation of the program tells `-0` from `+0`.
* An operation returns `none` when its IEEE result is not finite (overflow,
  division by zero, the square root of a negative number), and so does every
  computation that such a value would enter.
* `math.Sqrt` is the correctly rounded square root. `math.Hypot`, `math.Sincos`,
  `cmplx.Abs`, `cmplx.Exp` and the division of `complex128` follow the Go
  standard library (`math/hypot.go`, `math/sincos.go`, `math/cmplx/abs.go`,
  `math/cmplx/exp.go`, `runtime/complex.go`). `math.Exp` is only ever called
  with the argument 0 and `math.Sincos` only below its reduction threshold;
  other arguments give `none`.
-/

/-- A finite `float64`, the number `man * 2 ^ exp`, kept as IEEE 754 encodes
it: zero is `man = 0, exp = -1074`; a normal value has `2^52 ≤ |man| < 2^53` and
`-1074 ≤ exp ≤ 971`; a subnormal value has `|man| < 2^52` and `exp = -1074`. -/
structure F64 where
  man : Int
  exp : Int
  deriving DecidableEq

/-- The rational number that a `float64` value stands for. -/
def F64.toRat (x : F64) : ℚ :=
  (x.man : ℚ) * (2 : ℚ) ^ x.exp

/-- The number of binary digits of `n`, by repeated halving (`fuel` bounds the
number of steps). -/
def F64.bitLengthAux : Nat → Nat → Nat
  | 0, _ => 0
  | fuel + 1, n => if n = 0 then 0 else F64.bitLengthAux fuel (n / 2) + 1

/-- The number of binary digits of `n`: `0` for `0`, else `⌊log2 n⌋ + 1`. -/
def F64.bitLength (n : Nat) : Nat :=
  F64.bitLengthAux n n

/-- The value `0.0`. -/
def F64.zero : F64 :=
  { man := 0, exp := -1074 }

/-- The value `1.0`. -/
def F64.one : F64 :=
  { man := 2 ^ 52, exp := -52 }

/-- The value `0.5`. -/
def F64.half : F64 :=
  { man := 2 ^ 52, exp := -53 }

/-- Rounding to nearest, ties to even: the `float64` nearest to the exact value
`± n * 2 ^ e` (negative when `negative` is set); `none` when that is an
infinity. -/
def F64.round (negative : Bool) (n : Nat) (e : Int) : Option F64 :=
  if n = 0 then some F64.zero
  else
    let e1 : Int := max (e + (F64.bitLength n : Int) - 53) (-1074)
    let m : Nat :=
      if e1 ≤ e then n * 2 ^ (e - e1).toNat
      else
        let sh := (e1 - e).toNat
        let q := n / 2 ^ sh
        let r := n % 2 ^ sh
        let halfway := 2 ^ (sh - 1)
        if halfway < r ∨ (r = halfway ∧ q % 2 = 1) then q + 1 else q
    let m2 : Nat := if m = 2 ^ 53 then 2 ^ 52 else m
    let e2 : Int := if m = 2 ^ 53 then e1 + 1 else e1
    if 971 < e2 then none
    else some { man := if negative then -(m2 : Int) else (m2 : Int), exp := e2 }

/-- The `float64` nearest to the exact quotient `± (n / d) * 2 ^ e`. The
quotient is cut after more than 64 binary digits and one digit is appended
that records whether anything was cut off, which rounds as the exact quotient
does. -/
def F64.roundQuot (negative : Bool) (n d : Nat) (e : Int) : Option F64 :=
  if d = 0 then none
  else
    let k := F64.bitLength d + 64
    let q := (n * 2 ^ k) / d
    let r := (n * 2 ^ k) % d
    F64.round negative (2 * q + (if r = 0 then 0 else 1)) (e - (k : Int) - 1)

/-- The `float64` that a decimal literal `± digits * 10 ^ e10` of the Go source
denotes. -/
def F64.ofDecimal (negative : Bool) (digits : Nat) (e10 : Int) : Option F64 :=
  if 0 ≤ e10 then F64.round negative (digits * 10 ^ e10.toNat) 0
  else F64.roundQuot negative digits (10 ^ (-e10).toNat) 0

/-- The conversion `float64(i)` of an `int`. -/
def F64.ofInt (i : Int) : Option F64 :=
  F64.round (decide (i < 0)) i.natAbs 0

/-- The negation `-x`. -/
def F64.neg (x : F64) : F64 :=
  { man := -x.man, exp := x.exp }

/-- The absolute value `math.Abs(x)`. -/
def F64.abs (x : F64) : F64 :=
  { man := (x.man.natAbs : Int), exp := x.exp }

/-- The sum `x + y`. -/
def F64.add (x y : F64) : Option F64 :=
  let e := min x.exp y.exp
  let s : Int := x.man * 2 ^ (x.exp - e).toNat + y.man * 2 ^ (y.exp - e).toNat
  F64.round (decide (s < 0)) s.natAbs e

/-- The difference `x - y`. -/
def F64.sub (x y : F64) : Option F64 :=
  F64.add x y.neg

/-- The product `x * y`. -/
def F64.mul (x y : F64) : Option F64 :=
  F64.round (decide (x.man * y.man < 0)) (x.man * y.man).natAbs (x.exp + y.exp)

/-- The quotient `x / y`; a zero divisor gives an infinity or NaN, hence `none`. -/
def F64.div (x y : F64) : Option F64 :=
  if y.man = 0 then none
  else
    F64.roundQuot (decide (x.man < 0) != decide (y.man < 0)) x.man.natAbs y.man.natAbs
      (x.exp - y.exp)

/-- Newton steps towards the integer square root of `n`, from a guess `g` that
is not below it. -/
def F64.sqrtIter : Nat → Nat → Nat → Nat
  | 0, _, g => g
  | fuel + 1, n, g =>
    let next := (g + n / g) / 2
    if next < g then F64.sqrtIter fuel n next else g

/-- A candidate for the integer square root `⌊√n⌋`; `F64.sqrt` checks it. -/
def F64.natSqrt (n : Nat) : Nat :=
  if n = 0 then 0
  else F64.sqrtIter (F64.bitLength n) n (2 ^ ((F64.bitLength n + 1) / 2))

/-- The correctly rounded square root `math.Sqrt(x)`. The argument is scaled to
an integer `n` with an even exponent, `s = ⌊√n⌋` is checked by `s*s ≤ n <
(s+1)*(s+1)`, and one digit is appended that records whether `s*s < n`. -/
def F64.sqrt (x : F64) : Option F64 :=
  if x.man < 0 then none
  else
    let k : Int := if (x.exp - 64) % 2 = 0 then 64 else 65
    let n : Nat := x.man.natAbs * 2 ^ k.toNat
    let s := F64.natSqrt n
    if s * s ≤ n ∧ n < (s + 1) * (s + 1) then
      F64.round false (2 * s + (if s * s = n then 0 else 1)) ((x.exp - k) / 2 - 1)
    else none

/-- The comparison `x < y`. -/
def F64.lt (x y : F64) : Bool :=
  let e := min x.exp y.exp
  decide (x.man * 2 ^ (x.exp - e).toNat < y.man * 2 ^ (y.exp - e).toNat)

/-- The comparison `x >= y`. -/
def F64.ge (x y : F64) : Bool :=
  !(F64.lt x y)

/-- The conversion `uint64(x)` of a non-negative value: truncation. -/
def F64.toNat (x : F64) : Nat :=
  if 0 ≤ x.exp then x.man.toNat * 2 ^ x.exp.toNat else x.man.toNat / 2 ^ (-x.exp).toNat

/-- A `complex128` with finite parts. -/
structure C128 where
  re : F64
  im : F64
  deriving DecidableEq

/-- `math.Hypot(p, q)`: with `p ≥ q ≥ 0` after sorting, `p * Sqrt(1 + (q/p)*(q/p))`. -/
def mathHypot (p q : F64) : Option F64 :=
  let p0 := p.abs
  let q0 := q.abs
  let p1 := if p0.lt q0 then q0 else p0
  let q1 := if p0.lt q0 then p0 else q0
  if p1 = F64.zero then some F64.zero
  else do
    let q2 ← F64.div q1 p1
    let qq ← F64.mul q2 q2
    let s ← F64.add F64.one qq
    let r ← F64.sqrt s
    F64.mul p1 r

/-- `cmplx.Abs(x)`, which is `math.Hypot(real(x), imag(x))`. -/
def cmplxAbs (x : C128) : Option F64 :=
  mathHypot x.re x.im

/-- `cmplx.Conj(x)`. -/
def cmplxConj (x : C128) : C128 :=
  { re := x.re, im := x.im.neg }

/-- The product `a * b` of two `complex128`:
`(ar*br - ai*bi) + (ar*bi + ai*br)i`. -/
def C128.mul (a b : C128) : Option C128 := do
  let t1 ← F64.mul a.re b.re
  let t2 ← F64.mul a.im b.im
  let re ← F64.sub t1 t2
  let t3 ← F64.mul a.re b.im
  let t4 ← F64.mul a.im b.re
  let im ← F64.add t3 t4
  pure { re := re, im := im }

/-- The quotient `n / m` of two `complex128` (`runtime.complex128div`, the
division of Smith), when `|real(m)| ≥ |imag(m)|`. -/
def C128.divByRe (n m : C128) : Option C128 := do
  let quot ← F64.div m.im m.re
  let t ← F64.mul quot m.im
  let denom ← F64.add m.re t
  let t1 ← F64.mul n.im quot
  let t2 ← F64.add n.re t1
  let e ← F64.div t2 denom
  let t3 ← F64.mul n.re quot
  let t4 ← F64.sub n.im t3
  let f ← F64.div t4 denom
  pure { re := e, im := f }

/-- The quotient `n / m` of two `complex128` (`runtime.complex128div`), when
`|real(m)| < |imag(m)|`. -/
def C128.divByIm (n m : C128) : Option C128 := do
  let quot ← F64.div m.re m.im
  let t ← F64.mul quot m.re
  let denom ← F64.add m.im t
  let t1 ← F64.mul n.re quot
  let t2 ← F64.add t1 n.im
  let e ← F64.div t2 denom
  let t3 ← F64.mul n.im quot
  let t4 ← F64.sub t3 n.re
  let f ← F64.div t4 denom
  pure { re := e, im := f }

/-- The quotient `n / m` of two `complex128`. -/
def C128.div (n m : C128) : Option C128 :=
  if m.re.abs.lt m.im.abs then C128.divByIm n m else C128.divByRe n m

/-- The constant `2 * math.Pi` as a `float64`: `0x1.921fb54442d18p+2`. -/
def twoPi : F64 :=
  { man := 7074237752028440, exp := -50 }

/-- The constant `4 / Pi` of `math.Sincos` as a `float64`: `0x1.45f306dc9c883p+0`. -/
def fourOverPi : F64 :=
  { man := 5734161139222659, exp := -52 }

/-- The constant `PI4A = 7.85398125648498535156e-1` of `math.Sincos`. -/
def PI4A : F64 :=
  { man := 7074237412016128, exp := -53 }

/-- The constant `PI4B = 3.77489470793079817668e-8` of `math.Sincos`. -/
def PI4B : F64 :=
  { man := 5704459598430208, exp := -77 }

/-- The constant `PI4C = 2.69515142907905952645e-15` of `math.Sincos`. -/
def PI4C : F64 :=
  { man := 6833020653556080, exp := -101 }

/-- The coefficients `_sin` of `math/sin.go`: `1.58962301576546568060e-10`,
`-2.50507477628578072866e-8`, `2.75573136213857245213e-6`,
`-1.98412698295895385996e-4`, `8.33333333332211858878e-3`,
`-1.66666666666666307295e-1`. -/
def sinCoeff : List F64 :=
  [{ man := 6149556183080141, exp := -85 }, { man := -7571123942793053, exp := -78 },
   { man := 6506786710177953, exp := -71 }, { man := -7320136532877059, exp := -65 },
   { man := 4803839602522064, exp := -59 }, { man := -6004799503160648, exp := -55 }]

/-- The coefficients `_cos` of `math/sin.go`: `-1.13585365213876817300e-11`,
`2.08757008419747316778e-9`, `-2.75573141792967388112e-7`,
`2.48015872888517045348e-5`, `-1.38888888888730564116e-3`,
`4.16666666666665929218e-2`. -/
def cosCoeff : List F64 :=
  [{ man := -7030593573755547, exp := -89 }, { man := 5047434750082821, exp := -81 },
   { man := -5205429473528774, exp := -74 }, { man := 7320136533427445, exp := -68 },
   { man := -6405119470030737, exp := -62 }, { man := 6004799503160651, exp := -57 }]

/-- The polynomial `((((((c0*zz)+c1)*zz+c2)*zz+c3)*zz+c4)*zz+c5)` of
`math.Sincos`, for the coefficient list `c0, c1, ...`. -/
def sincosPoly (coeff : List F64) (zz : F64) : Option F64 :=
  match coeff with
  | [] => none
  | c0 :: cs => do
    let t0 ← F64.mul c0 zz
    let t ← cs.dropLast.foldlM
      (fun (acc : F64) (c : F64) => do
        let u ← F64.add acc c
        F64.mul u zz)
      t0
    match cs.getLast? with
    | none => pure t0
    | some c5 => F64.add t c5

/-- The argument reduction of `math.Sincos` for `0 < x < 1<<29`: the octant `j`
(already made even and reduced modulo 8) and
`z = ((x - y*PI4A) - y*PI4B) - y*PI4C`. -/
def sincosReduce (x : F64) : Option (Nat × F64) := do
  let t ← F64.mul x fourOverPi
  let j0 := t.toNat
  let j1 := if j0 % 2 = 1 then j0 + 1 else j0
  let y ← F64.ofInt j1
  let ya ← F64.mul y PI4A
  let yb ← F64.mul y PI4B
  let yc ← F64.mul y PI4C
  let z1 ← F64.sub x ya
  let z2 ← F64.sub z1 yb
  let z3 ← F64.sub z2 yc
  pure (j1 % 8, z3)

/-- The two polynomials of `math.Sincos` at the reduced argument `z`:
`sin = z + z*zz*P_sin(zz)` and `cos = 1.0 - 0.5*zz + zz*zz*P_cos(zz)`, as the
pair `(sin, cos)`. -/
def sincosKernel (z : F64) : Option (F64 × F64) := do
  let zz ← F64.mul z z
  let pc ← sincosPoly cosCoeff zz
  let hz ← F64.mul F64.half zz
  let c1 ← F64.sub F64.one hz
  let zzzz ← F64.mul zz zz
  let c2 ← F64.mul zzzz pc
  let cos ← F64.add c1 c2
  let ps ← sincosPoly sinCoeff zz
  let zzz ← F64.mul z zz
  let s2 ← F64.mul zzz ps
  let sin ← F64.add z s2
  pure (sin, cos)

/-- `math.Sincos(x)`, the pair `(sin, cos)`, for `|x| < 1<<29`. -/
def mathSincos (x : F64) : Option (F64 × F64) :=
  if x = F64.zero then some (x, F64.one)
  else
    let sinSign := x.lt F64.zero
    let ax := if sinSign then x.neg else x
    if F64.ge ax { man := 2 ^ 52, exp := -23 } then none
    else do
      let jz ← sincosReduce ax
      let sc ← sincosKernel jz.2
      let reflect := decide (3 < jz.1)
      let j := if reflect then jz.1 - 4 else jz.1
      let sinSign1 := if reflect then !sinSign else sinSign
      let cosSign := if decide (1 < j) then !reflect else reflect
      let swap := decide (j = 1 ∨ j = 2)
      let sin := if swap then sc.2 else sc.1
      let cos := if swap then sc.1 else sc.2
      pure (if sinSign1 then sin.neg else sin, if cosSign then cos.neg else cos)

/-- `math.Exp(x)` at the one argument the program passes, `x = 0`. -/
def mathExp (x : F64) : Option F64 :=
  if x = F64.zero then some F64.one else none

/-- `cmplx.Exp(x)`: with `r = math.Exp(real(x))` and
`s, c = math.Sincos(imag(x))`, the value `complex(r*c, r*s)`. -/
def cmplxExp (x : C128) : Option C128 := do
  let r ← mathExp x.re
  let sc ← mathSincos x.im
  let re ← F64.mul r sc.2
  let im ← F64.mul r sc.1
  pure { re := re, im := im }

/-- The `Qubit` structure over `complex128`. -/
structure Qubit64 where
  Alpha : C128
  Beta : C128
  deriving DecidableEq

/-- The local variable `norm` of `Normalize`, in `float64`. -/
def Qubit64.norm (q : Qubit64) : Option F64 := do
  let a ← cmplxAbs q.Alpha
  let b ← cmplxAbs q.Beta
  let aa ← F64.mul a a
  let bb ← F64.mul b b
  let s ← F64.add aa bb
  F64.sqrt s

/-- The state that the fallback branch of `Normalize` assigns: `Alpha = 1`,
`Beta = 0`. -/
def Qubit64.fallback : Qubit64 :=
  { Alpha := { re := F64.one, im := F64.zero }, Beta := { re := F64.zero, im := F64.zero } }

/-- `func (q *Qubit) Normalize()` in `float64`: the receiver after the call. -/
def Qubit64.Normalize (q : Qubit64) : Option Qubit64 := do
  let norm ← q.norm
  if norm = F64.zero then
    pure Qubit64.fallback
  else do
    let a ← C128.div q.Alpha { re := norm, im := F64.zero }
    let b ← C128.div q.Beta { re := norm, im := F64.zero }
    pure { Alpha := a, Beta := b }

/-- `func (q *Qubit) ApplyDeterministicGate(theta float64)` in `float64`: the
receiver after the call. -/
def Qubit64.ApplyDeterministicGate (q : Qubit64) (theta : F64) : Option Qubit64 := do
  let phase ← cmplxExp { re := F64.zero, im := theta }
  let a ← C128.mul q.Alpha phase
  let b ← C128.mul q.Beta (cmplxConj phase)
  Qubit64.Normalize { Alpha := a, Beta := b }

/-- `func (q *Qubit) CollapseBit() byte` in `float64`: the returned byte. -/
def Qubit64.CollapseBit (q : Qubit64) : Option Char := do
  let p ← C128.mul q.Alpha (cmplxConj q.Alpha)
  let realPart := p.re
  if F64.ge realPart F64.half then pure '0' else pure '1'

/-- The first loop of `collapseOneSample` in `float64`. -/
def initState64 (qCount : Nat) : Option (List Qubit64) :=
  let zeroQubit : Qubit64 :=
    { Alpha := { re := F64.zero, im := F64.zero }, Beta := { re := F64.zero, im := F64.zero } }
  let state : List Qubit64 := List.replicate qCount zeroQubit
  (List.range state.length).foldlM
    (fun (st : List Qubit64) (i : Nat) => do
      let fi ← F64.ofInt (i : Int)
      let fq ← F64.ofInt (qCount : Int)
      let t ← F64.mul twoPi fi
      let angle ← F64.div t fq
      let alpha ← cmplxExp { re := F64.zero, im := angle }
      let q ← Qubit64.Normalize { Alpha := alpha, Beta := { re := F64.zero, im := F64.one } }
      pure (st.set i q))
    state

/-- The inner loop of the evolution in `float64`, for round `d`. -/
def evolveRound64 (qCount depth d : Nat) (state : List Qubit64) : Option (List Qubit64) :=
  (List.range state.length).foldlM
    (fun (st : List Qubit64) (i : Nat) => do
      let fdi ← F64.ofInt (wrapInt ((d : Int) + (i : Int)))
      let fdq ← F64.ofInt (wrapInt ((depth : Int) + (qCount : Int)))
      let t ← F64.mul twoPi fdi
      let theta ← F64.div t fdq
      let q ← st[i]?
      let q1 ← q.ApplyDeterministicGate theta
      pure (st.set i q1))
    state

/-- `func collapseOneSample(qCount, depth int) string` in `float64`. -/
def collapseOneSample64 (qCount depth : Nat) : Option String := do
  let state0 ← initState64 qCount
  let state1 ← (List.range depth).foldlM
    (fun (st : List Qubit64) (d : Nat) => evolveRound64 qCount depth d st) state0
  let bits ← state1.mapM Qubit64.CollapseBit
  pure (String.mk bits)

/-- The `float64` state `Alpha = Beta = 0.5 + 0.5i`, of squared norm exactly 1. -/
def halfHalf : Qubit64 :=
  { Alpha := { re := F64.half, im := F64.half }, Beta := { re := F64.half, im := F64.half } }

/-- The `float64` nearest to `0.4`: `0x1.999999999999ap-2`. -/
def theta04 : F64 :=
  { man := 7205759403792794, exp := -54 }

/-- The `float64` state `Alpha = 0`, `Beta = 1e-200` (`0x1.87e92154ef7acp-665`). -/
def tinyBeta : Qubit64 :=
  { Alpha := { re := F64.zero, im := F64.zero },
    Beta := { re := { man := 6894565328877484, exp := -717 }, im := F64.zero } }

/-- The `float64` state `Alpha = 0`, `Beta = 0`. -/
def zeroQubit64 : Qubit64 :=
  { Alpha := { re := F64.zero, im := F64.zero }, Beta := { re := F64.zero, im := F64.zero } }

/-! ## Lemmas on the kernel -/

theorem mk_zero_eq_ofReal (r : ℝ) : (⟨r, 0⟩ : ℂ) = (r : ℂ) := rfl

theorem Qubit.norm_nonneg (q : Qubit) : 0 ≤ q.norm := Real.sqrt_nonneg _

theorem Qubit.norm_sq (q : Qubit) : q.norm ^ 2 = q.normSquared := by
  unfold Qubit.norm Qubit.normSquared
  rw [Real.sq_sqrt (by positivity)]
  ring

theorem Qubit.norm_eq_zero_iff (q : Qubit) : q.norm = 0 ↔ q.Alpha = 0 ∧ q.Beta = 0 := by
  unfold Qubit.norm
  rw [Real.sqrt_eq_zero (by positivity)]
  constructor
  · intro h
    have ha : 0 ≤ Complex.abs q.Alpha * Complex.abs q.Alpha := mul_self_nonneg _
    have hb : 0 ≤ Complex.abs q.Beta * Complex.abs q.Beta := mul_self_nonneg _
    have h1 : Complex.abs q.Alpha * Complex.abs q.Alpha = 0 := by linarith
    have h2 : Complex.abs q.Beta * Complex.abs q.Beta = 0 := by linarith
    exact ⟨by simpa using h1, by simpa using h2⟩
  · rintro ⟨h1, h2⟩
    simp [h1, h2]

theorem Qubit.Normalize_of_ne (q : Qubit) (h : q.norm ≠ 0) :
    q.Normalize = { Alpha := q.Alpha / (q.norm : ℂ), Beta := q.Beta / (q.norm : ℂ) } := by
  simp [Qubit.Normalize, h, mk_zero_eq_ofReal]

theorem Qubit.Normalize_of_eq (q : Qubit) (h : q.norm = 0) :
    q.Normalize = { Alpha := 1, Beta := 0 } := by
  simp [Qubit.Normalize, h]

theorem Qubit.abs_alpha_Normalize (q : Qubit) (h : q.norm ≠ 0) :
    Complex.abs q.Normalize.Alpha = Complex.abs q.Alpha / q.norm := by
  rw [Qubit.Normalize_of_ne q h]
  simp [abs_of_nonneg q.norm_nonneg]

theorem Qubit.abs_beta_Normalize (q : Qubit) (h : q.norm ≠ 0) :
    Complex.abs q.Normalize.Beta = Complex.abs q.Beta / q.norm := by
  rw [Qubit.Normalize_of_ne q h]
  simp [abs_of_nonneg q.norm_nonneg]

/-- Whatever the input, the state left by `Normalize` has squared norm one. -/
theorem Qubit.normSquared_Normalize (q : Qubit) : q.Normalize.normSquared = 1 := by
  by_cases h : q.norm = 0
  · rw [Qubit.Normalize_of_eq q h]
    simp [Qubit.normSquared]
  · have hn : q.norm ^ 2 ≠ 0 := pow_ne_zero 2 h
    have e : q.Normalize.normSquared
        = Complex.abs q.Normalize.Alpha ^ 2 + Complex.abs q.Normalize.Beta ^ 2 := rfl
    rw [e, Qubit.abs_alpha_Normalize q h, Qubit.abs_beta_Normalize q h, div_pow, div_pow,
      ← add_div, Qubit.norm_sq]
    change q.normSquared / q.normSquared = 1
    exact div_self (by rwa [← Qubit.norm_sq])

theorem abs_phase (theta : ℝ) : Complex.abs (Complex.exp (⟨0, theta⟩ : ℂ)) = 1 := by
  rw [Complex.abs_exp]
  simp

theorem abs_mk_zero_one : Complex.abs (⟨0, 1⟩ : ℂ) = 1 := by
  have h : (⟨0, 1⟩ : ℂ) = Complex.I := rfl
  rw [h, Complex.abs_I]

theorem Qubit.ApplyDeterministicGate_eq (q : Qubit) (theta : ℝ) :
    q.ApplyDeterministicGate theta
      = Qubit.Normalize
          { Alpha := q.Alpha * Complex.exp (⟨0, theta⟩ : ℂ),
            Beta := q.Beta * (starRingEnd ℂ) (Complex.exp (⟨0, theta⟩ : ℂ)) } := rfl

theorem Qubit.realPart_eq (a : ℂ) : (a * (starRingEnd ℂ) a).re = Complex.abs a ^ 2 := by
  rw [Complex.mul_conj, Complex.ofReal_re, Complex.sq_abs]

theorem Qubit.CollapseBit_fst (q : Qubit) :
    q.CollapseBit.1 = if Complex.abs q.Alpha ^ 2 ≥ 1 / 2 then '0' else '1' := by
  have h : (0.5 : ℝ) = 1 / 2 := by norm_num
  unfold Qubit.CollapseBit
  simp only [Qubit.realPart_eq, h]
  split <;> rfl

/-! ## Lemmas on in-place loops over a slice -/

/-- A loop that visits pairwise distinct indices and updates the visited slot in
place changes exactly the visited slots, each of them once. -/
theorem foldl_modify_getElem? {α : Type} (g : Nat → α → α) :
    ∀ (l : List Nat), l.Nodup → ∀ (st : List α) (j : Nat),
      (l.foldl (fun st i => st.modify (g i) i) st)[j]?
        = if j ∈ l then st[j]?.map (g j) else st[j]? := by
  intro l
  induction l with
  | nil => intro _ st j; simp
  | cons a l ih =>
    intro hnd st j
    rw [List.nodup_cons] at hnd
    rw [List.foldl_cons, ih hnd.2]
    by_cases hja : j = a
    · subst hja
      simp [hnd.1]
    · have hne : a ≠ j := fun h => hja h.symm
      simp [hja, List.getElem?_modify_ne _ _ hne]

theorem foldl_modify_length {α : Type} (g : Nat → α → α) :
    ∀ (l : List Nat) (st : List α),
      (l.foldl (fun st i => st.modify (g i) i) st).length = st.length := by
  intro l
  induction l with
  | nil => intro st; rfl
  | cons a l ih => intro st; rw [List.foldl_cons, ih, List.length_modify]

theorem set_modify_same {α : Type} (f : α → α) (v : α) (i : Nat) (st : List α) :
    (st.set i v).modify f i = st.modify (fun _ => f v) i := by
  apply List.ext_getElem?
  intro j
  by_cases h : i = j
  · subst h
    by_cases hl : i < st.length
    · simp [List.getElem?_set, hl, List.getElem?_eq_getElem hl]
    · have hl2 : st.length ≤ i := Nat.le_of_not_lt hl
      simp [List.getElem?_set, hl, List.getElem?_eq_none hl2]
  · simp [List.getElem?_modify_ne _ _ h, List.getElem?_set, h]

/-! ## Lemmas on the sample generator -/

theorem initState_eq (qCount : Nat) :
    initState qCount = (List.range qCount).map (initQubit qCount) := by
  apply List.ext_getElem?
  intro j
  unfold initState
  simp only [set_modify_same, List.length_replicate]
  rw [foldl_modify_getElem? (fun i _ => Qubit.Normalize
    { Alpha := Complex.exp (⟨0, 2 * Real.pi * (i : ℝ) / (qCount : ℝ)⟩ : ℂ),
      Beta := (⟨0, 1⟩ : ℂ) }) _ (List.nodup_range qCount)]
  by_cases hj : j < qCount
  · simp [hj, List.getElem?_replicate, initQubit, List.getElem?_range hj]
  · have hj2 : qCount ≤ j := Nat.le_of_not_lt hj
    simp [hj, List.getElem?_replicate, List.getElem?_eq_none, hj2]

theorem initState_length (qCount : Nat) : (initState qCount).length = qCount := by
  simp [initState_eq]

theorem evolveRoundInOrder_length (qCount depth d : Nat) (order : List Nat) (st : List Qubit) :
    (evolveRoundInOrder qCount depth d order st).length = st.length :=
  foldl_modify_length (fun (i : Nat) (q : Qubit) => q.ApplyDeterministicGate (gateTheta qCount depth d i)) order st

theorem evolveRound_eq_inOrder (qCount depth d : Nat) (st : List Qubit) :
    evolveRound qCount depth d st
      = evolveRoundInOrder qCount depth d (List.range st.length) st := rfl

theorem evolveRound_length (qCount depth d : Nat) (st : List Qubit) :
    (evolveRound qCount depth d st).length = st.length := by
  rw [evolveRound_eq_inOrder, evolveRoundInOrder_length]

/-- A round that visits every index of the slice exactly once applies to every
qubit its own gate, whatever the order of the visits. -/
theorem evolveRoundInOrder_getElem? (qCount depth d : Nat) (order : List Nat)
    (st : List Qubit) (h : order.Perm (List.range st.length)) (j : Nat) :
    (evolveRoundInOrder qCount depth d order st)[j]?
      = st[j]?.map (fun q => q.ApplyDeterministicGate (gateTheta qCount depth d j)) := by
  unfold evolveRoundInOrder
  rw [foldl_modify_getElem? (fun (i : Nat) (q : Qubit) => q.ApplyDeterministicGate (gateTheta qCount depth d i))
    order (h.nodup_iff.2 (List.nodup_range _))]
  by_cases hj : j < st.length
  · have hm : j ∈ order := h.mem_iff.2 (List.mem_range.2 hj)
    simp [hm]
  · have hm : j ∉ order := fun hm => hj (List.mem_range.1 (h.mem_iff.1 hm))
    have hj2 : st.length ≤ j := Nat.le_of_not_lt hj
    simp [hm, List.getElem?_eq_none hj2]

theorem evolveRound_getElem? (qCount depth d : Nat) (st : List Qubit) (j : Nat) :
    (evolveRound qCount depth d st)[j]?
      = st[j]?.map (fun q => q.ApplyDeterministicGate (gateTheta qCount depth d j)) := by
  rw [evolveRound_eq_inOrder]
  exact evolveRoundInOrder_getElem? qCount depth d _ st (List.Perm.refl _) j

theorem foldl_evolveRound_length (qCount depth : Nat) :
    ∀ (ds : List Nat) (st : List Qubit),
      (ds.foldl (fun st d => evolveRound qCount depth d st) st).length = st.length := by
  intro ds
  induction ds with
  | nil => intro st; rfl
  | cons d ds ih => intro st; rw [List.foldl_cons, ih, evolveRound_length]

theorem foldl_evolveRound_getElem? (qCount depth : Nat) :
    ∀ (ds : List Nat) (st : List Qubit) (j : Nat),
      (ds.foldl (fun st d => evolveRound qCount depth d st) st)[j]?
        = st[j]?.map (fun q =>
            ds.foldl (fun q d => q.ApplyDeterministicGate (gateTheta qCount depth d j)) q) := by
  intro ds
  induction ds with
  | nil => intro st j; simp
  | cons d ds ih =>
    intro st j
    rw [List.foldl_cons, ih, evolveRound_getElem?]
    cases st[j]? <;> rfl

theorem evolvedState_length (qCount depth : Nat) :
    (evolvedState qCount depth).length = qCount := by
  unfold evolvedState evolve
  rw [foldl_evolveRound_length, initState_length]

/-- The qubit array before the collapse holds, at index `i`, the qubit that was
initialised with index `i` and went through its own gates alone. -/
theorem evolvedState_eq (qCount depth : Nat) :
    evolvedState qCount depth = (List.range qCount).map (singleQubitTrace qCount depth) := by
  apply List.ext_getElem?
  intro j
  unfold evolvedState evolve
  rw [foldl_evolveRound_getElem?, initState_eq]
  by_cases hj : j < qCount
  · simp [List.getElem?_range hj, hj, singleQubitTrace]
  · have hj2 : qCount ≤ j := Nat.le_of_not_lt hj
    simp [List.getElem?_eq_none, hj2]

theorem foldl_push_data (f : Qubit → Char) :
    ∀ (l : List Qubit) (b : String),
      (l.foldl (fun (b : String) (q : Qubit) => b.push (f q)) b).data = b.data ++ l.map f := by
  intro l
  induction l with
  | nil => intro b; simp
  | cons q l ih => intro b; rw [List.foldl_cons, ih]; simp

theorem collapseAll_data (st : List Qubit) :
    (collapseAll st).data = st.map (fun q => q.CollapseBit.1) := by
  unfold collapseAll
  rw [foldl_push_data (fun q => q.CollapseBit.1)]
  rfl

theorem CollapseBit_fst_zero_or_one (q : Qubit) :
    q.CollapseBit.1 = '0' ∨ q.CollapseBit.1 = '1' := by
  rw [Qubit.CollapseBit_fst]
  split
  · exact Or.inl rfl
  · exact Or.inr rfl

/-! ## Lemmas on balanced qubits -/

theorem Qubit.norm_of_unit (q : Qubit) (ha : Complex.abs q.Alpha ^ 2 + Complex.abs q.Beta ^ 2 = 1) :
    q.norm = 1 := by
  unfold Qubit.norm
  rw [← sq, ← sq, ha, Real.sqrt_one]

theorem Qubit.Normalize_of_unit (q : Qubit)
    (ha : Complex.abs q.Alpha ^ 2 + Complex.abs q.Beta ^ 2 = 1) : q.Normalize = q := by
  have h1 : q.norm = 1 := Qubit.norm_of_unit q ha
  rw [Qubit.Normalize_of_ne q (by rw [h1]; exact one_ne_zero), h1]
  simp

theorem Qubit.ApplyDeterministicGate_of_unit (q : Qubit) (theta : ℝ)
    (ha : Complex.abs q.Alpha ^ 2 + Complex.abs q.Beta ^ 2 = 1) :
    q.ApplyDeterministicGate theta
      = { Alpha := q.Alpha * Complex.exp (⟨0, theta⟩ : ℂ),
          Beta := q.Beta * (starRingEnd ℂ) (Complex.exp (⟨0, theta⟩ : ℂ)) } := by
  rw [Qubit.ApplyDeterministicGate_eq]
  apply Qubit.Normalize_of_unit
  simp only [map_mul, Complex.abs_conj, abs_phase, mul_one]
  exact ha

theorem Qubit.Balanced.unit {q : Qubit} (h : q.Balanced) :
    Complex.abs q.Alpha ^ 2 + Complex.abs q.Beta ^ 2 = 1 := by
  rw [h.1, h.2]
  norm_num

theorem Qubit.Balanced.gate {q : Qubit} (h : q.Balanced) (theta : ℝ) :
    (q.ApplyDeterministicGate theta).Balanced := by
  rw [Qubit.ApplyDeterministicGate_of_unit q theta h.unit]
  unfold Qubit.Balanced
  simp only [map_mul, Complex.abs_conj, abs_phase, mul_one]
  exact h

theorem Qubit.Balanced.foldl_gate (angle : Nat → ℝ) :
    ∀ (ds : List Nat) (q : Qubit), q.Balanced →
      (ds.foldl (fun (q : Qubit) (d : Nat) => q.ApplyDeterministicGate (angle d)) q).Balanced := by
  intro ds
  induction ds with
  | nil => intro q h; exact h
  | cons d ds ih => intro q h; rw [List.foldl_cons]; exact ih _ (h.gate _)

theorem Qubit.Balanced.collapse {q : Qubit} (h : q.Balanced) : q.CollapseBit.1 = '0' := by
  rw [Qubit.CollapseBit_fst, h.1]
  simp

theorem initQubit_balanced (qCount i : Nat) : (initQubit qCount i).Balanced := by
  have hn : Qubit.norm
      (Qubit.mk (Complex.exp (⟨0, 2 * Real.pi * (i : ℝ) / (qCount : ℝ)⟩ : ℂ)) (⟨0, 1⟩ : ℂ))
        = Real.sqrt 2 := by
    unfold Qubit.norm
    simp only [abs_phase, abs_mk_zero_one]
    norm_num
  have h2 : Real.sqrt 2 ≠ 0 := by
    rw [Ne, Real.sqrt_eq_zero (by norm_num)]
    norm_num
  have hs : Real.sqrt 2 ^ 2 = 2 := Real.sq_sqrt (by norm_num)
  unfold initQubit Qubit.Balanced
  rw [Qubit.abs_alpha_Normalize _ (by rw [hn]; exact h2),
    Qubit.abs_beta_Normalize _ (by rw [hn]; exact h2), hn]
  simp only [abs_phase, abs_mk_zero_one, div_pow, one_pow, hs]
  exact ⟨trivial, trivial⟩

theorem singleQubitTrace_balanced (qCount depth i : Nat) :
    (singleQubitTrace qCount depth i).Balanced :=
  Qubit.Balanced.foldl_gate (fun d => gateTheta qCount depth d i) _ _ (initQubit_balanced qCount i)

theorem singleQubit_balanced (qCount depth i : Nat) : (singleQubit qCount depth i).Balanced :=
  Qubit.Balanced.foldl_gate
    (fun d => 2 * Real.pi * ((d : ℝ) + (i : ℝ)) / ((depth : ℝ) + (qCount : ℝ))) _ _
    (initQubit_balanced qCount i)

theorem evolvedState_balanced (qCount depth : Nat) :
    ∀ q ∈ evolvedState qCount depth, q.Balanced := by
  intro q hq
  rw [evolvedState_eq, List.mem_map] at hq
  obtain ⟨i, _, rfl⟩ := hq
  exact singleQubitTrace_balanced qCount depth i

theorem collapseOneSample_data (qCount depth : Nat) :
    (collapseOneSample qCount depth).data = List.replicate qCount '0' := by
  unfold collapseOneSample
  rw [collapseAll_data, List.eq_replicate_iff]
  refine ⟨by rw [List.length_map, evolvedState_length], ?_⟩
  intro c hc
  rw [List.mem_map] at hc
  obtain ⟨q, hq, rfl⟩ := hc
  exact (evolvedState_balanced qCount depth q hq).collapse

/-! ## Lemmas on reordered rounds -/

theorem wrapInt_of_lt (n : Int) (h0 : 0 ≤ n) (h1 : n < 2 ^ 63) : wrapInt n = n := by
  unfold wrapInt
  norm_num at h1 ⊢
  omega

theorem gateTheta_of_lt (qCount depth d i : Nat) (hd : d < depth) (hi : i < qCount)
    (h : depth + qCount < 2 ^ 63) :
    gateTheta qCount depth d i
      = 2 * Real.pi * ((d : ℝ) + (i : ℝ)) / ((depth : ℝ) + (qCount : ℝ)) := by
  have h1 : wrapInt ((d : Int) + (i : Int)) = (d : Int) + (i : Int) := by
    apply wrapInt_of_lt
    · omega
    · norm_num at h ⊢
      omega
  have h2 : wrapInt ((depth : Int) + (qCount : Int)) = (depth : Int) + (qCount : Int) := by
    apply wrapInt_of_lt
    · omega
    · norm_num at h ⊢
      omega
  unfold gateTheta
  rw [h1, h2]
  push_cast
  rfl

theorem singleQubitTrace_eq_singleQubit (qCount depth i : Nat) (hi : i < qCount)
    (h : depth + qCount < 2 ^ 63) :
    singleQubitTrace qCount depth i = singleQubit qCount depth i := by
  unfold singleQubitTrace singleQubit
  apply List.foldl_ext
  intro q d hd
  rw [gateTheta_of_lt qCount depth d i (List.mem_range.1 hd) hi h]

theorem foldl_inOrder_eq (qCount depth : Nat) (order : Nat → List Nat) :
    ∀ (ds : List Nat) (st : List Qubit), st.length = qCount →
      (∀ d ∈ ds, (order d).Perm (List.range qCount)) →
      ds.foldl (fun st d => evolveRoundInOrder qCount depth d (order d) st) st
        = ds.foldl (fun st d => evolveRound qCount depth d st) st := by
  intro ds
  induction ds with
  | nil => intro st _ _; rfl
  | cons d ds ih =>
    intro st hlen hperm
    have hd : (order d).Perm (List.range st.length) := by
      rw [hlen]
      exact hperm d (List.mem_cons_self d ds)
    have hstep : evolveRoundInOrder qCount depth d (order d) st = evolveRound qCount depth d st := by
      apply List.ext_getElem?
      intro j
      rw [evolveRoundInOrder_getElem? qCount depth d (order d) st hd, evolveRound_getElem?]
    rw [List.foldl_cons, List.foldl_cons, hstep]
    apply ih
    · rw [evolveRound_length, hlen]
    · intro d' hd'
      exact hperm d' (List.mem_cons_of_mem d hd')

/-! ## Lemmas on the loop of `main` and on the CSV sink -/

theorem mainLoop_fold_fst (qCount depth samples : Nat) :
    ∀ (l : List Nat) (acc : List String × List String),
      (l.foldl
          (fun (acc : List String × List String) (i : Nat) =>
            let bitstr := collapseOneSample qCount depth
            let all := acc.1.set i bitstr
            if i % 500 = 0 then
              (all, acc.2 ++ [progressLine i samples])
            else
              (all, acc.2))
          acc).1
        = l.foldl (fun st i => st.modify (fun _ => collapseOneSample qCount depth) i) acc.1 := by
  intro l
  induction l with
  | nil => intro acc; rfl
  | cons i l ih =>
    intro acc
    rw [List.foldl_cons, List.foldl_cons, ih]
    congr 1
    dsimp only
    split <;> exact List.set_eq_modify _ _ _

theorem mainLoop_fst (qCount depth samples : Nat) :
    (mainLoop qCount depth samples).1
      = List.replicate samples (collapseOneSample qCount depth) := by
  unfold mainLoop
  dsimp only
  rw [mainLoop_fold_fst]
  apply List.ext_getElem?
  intro j
  rw [foldl_modify_getElem? (fun _ _ => collapseOneSample qCount depth) _ (List.nodup_range _)]
  by_cases hj : j < samples
  · simp [hj, List.getElem?_replicate]
  · simp [hj, List.getElem?_replicate]

theorem GenerateCollection_eq (qCount depth sampleCount : Nat) :
    GenerateCollection qCount depth sampleCount
      = List.replicate sampleCount (collapseOneSample qCount depth) := by
  unfold GenerateCollection
  rw [List.map_const', List.length_range]

theorem foldl_Write_handed (env : SinkBehaviour) :
    ∀ (bitstrings : List String) (w : CsvWriter),
      (bitstrings.foldl (fun (w : CsvWriter) (b : String) => (w.Write env [b]).2) w).handed
        = w.handed ++ bitstrings.map (fun b => [b]) := by
  intro bitstrings
  induction bitstrings with
  | nil => intro w; simp
  | cons b bs ih =>
    intro w
    rw [List.foldl_cons, ih]
    unfold CsvWriter.Write
    split <;> simp

theorem foldl_Write_accepted (env : SinkBehaviour) (hw : ∀ k, env.writeFails k = false) :
    ∀ (bitstrings : List String) (w : CsvWriter),
      (bitstrings.foldl (fun (w : CsvWriter) (b : String) => (w.Write env [b]).2) w).accepted
        = w.accepted ++ bitstrings.map (fun b => [b]) := by
  intro bitstrings
  induction bitstrings with
  | nil => intro w; simp
  | cons b bs ih =>
    intro w
    rw [List.foldl_cons, ih]
    simp [CsvWriter.Write, hw]

/-! ## The constants of the float64 model -/

/-- The constants of the model are the `float64` values of the decimal literals
and constant expressions of the Go source: `2 * math.Pi`, `4 / Pi`, `PI4A`,
`PI4B`, `PI4C`, `0.5`, and the coefficients of the two polynomials. -/
theorem float_constants_rounded :
    F64.ofDecimal false
        (2 * 314159265358979323846264338327950288419716939937510582097494459) (-62)
        = some twoPi
      ∧ F64.roundQuot false (4 * 10 ^ 62)
          314159265358979323846264338327950288419716939937510582097494459 0
        = some fourOverPi
      ∧ F64.ofDecimal false 785398125648498535156 (-21) = some PI4A
      ∧ F64.ofDecimal false 377489470793079817668 (-28) = some PI4B
      ∧ F64.ofDecimal false 269515142907905952645 (-35) = some PI4C
      ∧ F64.ofDecimal false 5 (-1) = some F64.half
      ∧ [F64.ofDecimal false 158962301576546568060 (-30),
          F64.ofDecimal true 250507477628578072866 (-28),
          F64.ofDecimal false 275573136213857245213 (-26),
          F64.ofDecimal true 198412698295895385996 (-24),
          F64.ofDecimal false 833333333332211858878 (-23),
          F64.ofDecimal true 166666666666666307295 (-21)] = sinCoeff.map some
      ∧ [F64.ofDecimal true 113585365213876817300 (-31),
          F64.ofDecimal false 208757008419747316778 (-29),
          F64.ofDecimal true 275573141792967388112 (-27),
          F64.ofDecimal false 248015872888517045348 (-25),
          F64.ofDecimal true 138888888888730564116 (-23),
          F64.ofDecimal false 416666666666665929218 (-22)] = cosCoeff.map some := by
  refine ⟨?_, ?_, ?_, ?_, ?_, ?_, ?_, ?_⟩ <;> decide!

/-- The square root of 2, its reciprocal and the square of that, as the
program computes them for the first qubit: `1.4142135623730951`,
`0.7071067811865475` and `0.4999999999999999`, the last below `0.5`. -/
theorem float_sqrt_two_trace :
    F64.sqrt { man := 2 ^ 53, exp := -52 } = some { man := 6369051672525773, exp := -52 }
      ∧ F64.div F64.one { man := 6369051672525773, exp := -52 }
        = some { man := 6369051672525772, exp := -53 }
      ∧ F64.mul { man := 6369051672525772, exp := -53 } { man := 6369051672525772, exp := -53 }
        = some { man := 9007199254740990, exp := -54 }
      ∧ F64.lt { man := 9007199254740990, exp := -54 } F64.half = true := by
  refine ⟨?_, ?_, ?_, ?_⟩ <;> decide!

/-! ## Claims on the kernel -/

/-- C1: for every qubit state and every real `theta`, the state left by
`ApplyDeterministicGate theta` satisfies `|Alpha|^2 + |Beta|^2 = 1`; in
particular a unit-norm state is mapped to a unit-norm state. -/
theorem ApplyDeterministicGate_unit_norm (q : Qubit) (theta : ℝ) :
    Complex.abs (q.ApplyDeterministicGate theta).Alpha ^ 2
        + Complex.abs (q.ApplyDeterministicGate theta).Beta ^ 2 = 1
      ∧ (Complex.abs q.Alpha ^ 2 + Complex.abs q.Beta ^ 2 = 1 →
          Complex.abs (q.ApplyDeterministicGate theta).Alpha ^ 2
            + Complex.abs (q.ApplyDeterministicGate theta).Beta ^ 2 = 1) := by
  have h := Qubit.normSquared_Normalize
    { Alpha := q.Alpha * Complex.exp (⟨0, theta⟩ : ℂ),
      Beta := q.Beta * (starRingEnd ℂ) (Complex.exp (⟨0, theta⟩ : ℂ)) }
  rw [← Qubit.ApplyDeterministicGate_eq] at h
  exact ⟨h, fun _ => h⟩

/-- C2: when `Alpha` and `Beta` are not both zero, `Normalize` replaces
`(Alpha, Beta)` by `(Alpha/n, Beta/n)` with `n = sqrt(|Alpha|^2 + |Beta|^2)`, and
the resulting state satisfies `|Alpha|^2 + |Beta|^2 = 1`. -/
theorem Normalize_divides_by_norm (q : Qubit) (h : ¬ (q.Alpha = 0 ∧ q.Beta = 0)) :
    q.Normalize.Alpha
        = q.Alpha / ((Real.sqrt (Complex.abs q.Alpha ^ 2 + Complex.abs q.Beta ^ 2) : ℝ) : ℂ)
      ∧ q.Normalize.Beta
        = q.Beta / ((Real.sqrt (Complex.abs q.Alpha ^ 2 + Complex.abs q.Beta ^ 2) : ℝ) : ℂ)
      ∧ Complex.abs q.Normalize.Alpha ^ 2 + Complex.abs q.Normalize.Beta ^ 2 = 1 := by
  have hn : q.norm ≠ 0 := fun h0 => h ((Qubit.norm_eq_zero_iff q).1 h0)
  have e : Real.sqrt (Complex.abs q.Alpha ^ 2 + Complex.abs q.Beta ^ 2) = q.norm := by
    unfold Qubit.norm
    rw [sq, sq]
  rw [e, Qubit.Normalize_of_ne q hn]
  refine ⟨rfl, rfl, ?_⟩
  have := Qubit.normSquared_Normalize q
  rw [Qubit.Normalize_of_ne q hn] at this
  exact this

/-- Witness of C2 at the state `(3, 4i)`. -/
theorem Normalize_divides_by_norm_witness :
    ¬ ((3 : ℂ) = 0 ∧ (⟨0, 4⟩ : ℂ) = 0)
      ∧ Complex.abs (Qubit.Normalize { Alpha := 3, Beta := ⟨0, 4⟩ }).Alpha ^ 2
          + Complex.abs (Qubit.Normalize { Alpha := 3, Beta := ⟨0, 4⟩ }).Beta ^ 2 = 1 :=
  ⟨by norm_num, (Normalize_divides_by_norm { Alpha := 3, Beta := ⟨0, 4⟩ } (by norm_num)).2.2⟩

/-- C3, amended: `Normalize` applied to the qubit with `Alpha = 0` and
`Beta = 0` leaves `Alpha = 1`, `Beta = 0` through the fallback branch (no
division), over exact numbers and in `float64` alike. Over exact numbers the
branch is taken if and only if both amplitudes are zero: every other state is
divided by its non-zero norm. In `float64` the branch is taken whenever the
computed norm is zero. -/
theorem Normalize_fallback_branch :
    Qubit.Normalize { Alpha := 0, Beta := 0 } = { Alpha := 1, Beta := 0 }
      ∧ (∀ q : Qubit, q.Alpha = 0 ∧ q.Beta = 0 →
          q.norm = 0 ∧ q.Normalize = { Alpha := 1, Beta := 0 })
      ∧ (∀ q : Qubit, ¬ (q.Alpha = 0 ∧ q.Beta = 0) →
          q.norm ≠ 0
            ∧ q.Normalize
              = { Alpha := q.Alpha / (⟨q.norm, 0⟩ : ℂ), Beta := q.Beta / (⟨q.norm, 0⟩ : ℂ) })
      ∧ zeroQubit64.norm = some F64.zero
      ∧ zeroQubit64.Normalize = some Qubit64.fallback
      ∧ (∀ q : Qubit64, q.norm = some F64.zero → q.Normalize = some Qubit64.fallback)
      ∧ (∀ (q : Qubit64) (n : F64), q.norm = some n → n ≠ F64.zero →
          q.Normalize
            = (C128.div q.Alpha { re := n, im := F64.zero }).bind (fun a =>
                (C128.div q.Beta { re := n, im := F64.zero }).bind (fun b =>
                  some { Alpha := a, Beta := b }))) := by
  have hz : ∀ q : Qubit, q.Alpha = 0 ∧ q.Beta = 0 →
      q.norm = 0 ∧ q.Normalize = { Alpha := 1, Beta := 0 } := by
    intro q h
    have h0 : q.norm = 0 := (Qubit.norm_eq_zero_iff q).2 h
    exact ⟨h0, Qubit.Normalize_of_eq q h0⟩
  refine ⟨(hz _ ⟨rfl, rfl⟩).2, hz, ?_, ?_, ?_, ?_, ?_⟩
  · intro q h
    have hn : q.norm ≠ 0 := fun h0 => h ((Qubit.norm_eq_zero_iff q).1 h0)
    refine ⟨hn, ?_⟩
    rw [Qubit.Normalize_of_ne q hn]
    rfl
  · decide!
  · decide!
  · intro q h
    simp [Qubit64.Normalize, h]
  · intro q n h hn
    simp only [Qubit64.Normalize, h, Option.bind_eq_bind, Option.some_bind, hn, if_false,
      Option.pure_def]

/-- C3 as stated fails in `float64`: for `Alpha = 0`, `Beta = 1e-200` the
squared modulus underflows to zero, the computed norm is zero and `Normalize`
takes the fallback branch although `Beta` is not zero. -/
theorem Normalize64_fallback_on_underflow :
    F64.ofDecimal false 1 (-200) = some tinyBeta.Beta.re
      ∧ tinyBeta.Beta.re ≠ F64.zero
      ∧ cmplxAbs tinyBeta.Beta = some tinyBeta.Beta.re
      ∧ F64.mul tinyBeta.Beta.re tinyBeta.Beta.re = some F64.zero
      ∧ tinyBeta.norm = some F64.zero
      ∧ tinyBeta.Normalize = some Qubit64.fallback := by
  refine ⟨?_, ?_, ?_, ?_, ?_, ?_⟩
  · decide!
  · decide
  · decide!
  · decide!
  · decide!
  · decide!

/-- C4: `CollapseBit` leaves the qubit as it is and returns a byte that depends
on `Alpha` alone: `'0'` if and only if `|Alpha|^2 ≥ 0.5` and `'1'` otherwise,
whatever `Beta` is; it returns `'0'` for `Alpha = 1` and `'1'` for `Alpha = 0`. -/
theorem CollapseBit_threshold :
    (∀ q : Qubit, q.CollapseBit.2 = q
        ∧ (q.CollapseBit.1 = '0' ↔ Complex.abs q.Alpha ^ 2 ≥ 0.5)
        ∧ (q.CollapseBit.1 = '1' ↔ ¬ Complex.abs q.Alpha ^ 2 ≥ 0.5))
      ∧ (∀ (a b b' : ℂ), (Qubit.CollapseBit { Alpha := a, Beta := b }).1
          = (Qubit.CollapseBit { Alpha := a, Beta := b' }).1)
      ∧ (∀ b : ℂ, (Qubit.CollapseBit { Alpha := 1, Beta := b }).1 = '0')
      ∧ (∀ b : ℂ, (Qubit.CollapseBit { Alpha := 0, Beta := b }).1 = '1') := by
  have h : (0.5 : ℝ) = 1 / 2 := by norm_num
  refine ⟨fun q => ⟨?_, ?_, ?_⟩, ?_, ?_, ?_⟩
  · unfold Qubit.CollapseBit
    dsimp only
    split <;> rfl
  · rw [Qubit.CollapseBit_fst, h]
    split <;> simp_all
  · rw [Qubit.CollapseBit_fst, h]
    split <;> simp_all
  · intro a b b'
    rw [Qubit.CollapseBit_fst, Qubit.CollapseBit_fst]
  · intro b
    rw [Qubit.CollapseBit_fst]
    norm_num
  · intro b
    rw [Qubit.CollapseBit_fst]
    norm_num

/-! ## Claims on the sample generator -/

/-- C5: `collapseOneSample qubitCount depth` is a string of exactly `qubitCount`
characters, each of them `'0'` or `'1'`, and its `i`-th character is
`CollapseBit` of the `i`-th qubit of the evolved array, which has `qubitCount`
entries. -/
theorem collapseOneSample_shape (qubitCount depth : Nat) :
    (collapseOneSample qubitCount depth).length = qubitCount
      ∧ (∀ c ∈ (collapseOneSample qubitCount depth).data, c = '0' ∨ c = '1')
      ∧ (evolvedState qubitCount depth).length = qubitCount
      ∧ (∀ i, i < qubitCount →
          ∃ q, (evolvedState qubitCount depth)[i]? = some q
            ∧ (collapseOneSample qubitCount depth).data[i]? = some q.CollapseBit.1) := by
  have hd := collapseAll_data (evolvedState qubitCount depth)
  have hl := evolvedState_length qubitCount depth
  refine ⟨?_, ?_, hl, ?_⟩
  · change (collapseAll (evolvedState qubitCount depth)).data.length = qubitCount
    rw [hd, List.length_map, hl]
  · intro c hc
    change c ∈ (collapseAll (evolvedState qubitCount depth)).data at hc
    rw [hd, List.mem_map] at hc
    obtain ⟨q, _, rfl⟩ := hc
    exact CollapseBit_fst_zero_or_one q
  · intro i hi
    have hi2 : i < (evolvedState qubitCount depth).length := by rw [hl]; exact hi
    refine ⟨(evolvedState qubitCount depth)[i], List.getElem?_eq_getElem hi2, ?_⟩
    change (collapseAll (evolvedState qubitCount depth)).data[i]? = _
    rw [hd, List.getElem?_map, List.getElem?_eq_getElem hi2]
    rfl

/-- Witness of C5: three qubits and two rounds. -/
theorem collapseOneSample_shape_witness :
    (collapseOneSample 3 2).length = 3
      ∧ ∃ q, (evolvedState 3 2)[1]? = some q
          ∧ (collapseOneSample 3 2).data[1]? = some q.CollapseBit.1 :=
  ⟨(collapseOneSample_shape 3 2).1, (collapseOneSample_shape 3 2).2.2.2 1 (by decide)⟩

/-- C6: when every round visits the qubits in an arbitrary permutation of the
indices, the evolution rounds leave the same state for every qubit, and hence
the same bitstring, as the index-order rounds of `collapseOneSample`; the
qubit at index `i` is the single qubit initialised with index `i` and passed
alone through its gates, and the `i`-th output bit is `CollapseBit` of the
single qubit passed through the gates `theta = 2*pi*(d+i)/(depth+qubitCount)`. -/
theorem evolution_order_independent (qubitCount depth : Nat) (order : Nat → List Nat)
    (h : ∀ d, d < depth → (order d).Perm (List.range qubitCount)) :
    evolveInOrder qubitCount depth order (initState qubitCount)
        = evolve qubitCount depth (initState qubitCount)
      ∧ collapseAll (evolveInOrder qubitCount depth order (initState qubitCount))
        = collapseOneSample qubitCount depth
      ∧ (∀ i, i < qubitCount →
          (evolveInOrder qubitCount depth order (initState qubitCount))[i]?
              = some (singleQubitTrace qubitCount depth i)
            ∧ (collapseOneSample qubitCount depth).data[i]?
              = some (singleQubit qubitCount depth i).CollapseBit.1
            ∧ (depth + qubitCount < 2 ^ 63 →
                (evolveInOrder qubitCount depth order (initState qubitCount))[i]?
                  = some (singleQubit qubitCount depth i))) := by
  have e : evolveInOrder qubitCount depth order (initState qubitCount)
      = evolvedState qubitCount depth :=
    foldl_inOrder_eq qubitCount depth order (List.range depth) (initState qubitCount)
      (initState_length qubitCount) (fun d hd => h d (List.mem_range.1 hd))
  refine ⟨e, by rw [e]; rfl, ?_⟩
  intro i hi
  have hs : (evolvedState qubitCount depth)[i]? = some (singleQubitTrace qubitCount depth i) := by
    rw [evolvedState_eq, List.getElem?_map, List.getElem?_range hi]
    rfl
  refine ⟨by rw [e, hs], ?_, ?_⟩
  · rw [collapseOneSample_data, (singleQubit_balanced qubitCount depth i).collapse,
      List.getElem?_replicate]
    simp [hi]
  · intro hlt
    rw [e, hs, singleQubitTrace_eq_singleQubit qubitCount depth i hi hlt]

/-- Witness of C6: three qubits, two rounds, every round visiting the qubits in
the order 2, 0, 1. -/
theorem evolution_order_independent_witness :
    (∀ d, d < 2 → ([2, 0, 1] : List Nat).Perm (List.range 3))
      ∧ evolveInOrder 3 2 (fun _ => [2, 0, 1]) (initState 3) = evolve 3 2 (initState 3) :=
  ⟨fun _ _ => by decide,
    (evolution_order_independent 3 2 (fun _ => [2, 0, 1])
      (fun _ _ => (by decide : ([2, 0, 1] : List Nat).Perm (List.range 3)))).1⟩

/-- C10, amended: over exact complex numbers, for every `qubitCount` and
`depth`, each of the `qubitCount` qubits ends with `|Alpha|^2` and `|Beta|^2`
exactly `1/2`: the value that `CollapseBit` compares with `0.5` sits on the
threshold, whatever the depth. -/
theorem evolvedState_on_threshold (qubitCount depth : Nat) :
    (evolvedState qubitCount depth).length = qubitCount
      ∧ ∀ q ∈ evolvedState qubitCount depth,
          Complex.abs q.Alpha ^ 2 = 1 / 2
            ∧ Complex.abs q.Beta ^ 2 = 1 / 2
            ∧ (q.Alpha * (starRingEnd ℂ) q.Alpha).re = 0.5 := by
  refine ⟨evolvedState_length qubitCount depth, ?_⟩
  intro q hq
  have hb := evolvedState_balanced qubitCount depth q hq
  refine ⟨hb.1, hb.2, ?_⟩
  rw [Qubit.realPart_eq, hb.1]
  norm_num

/-- C10 as stated fails in `float64`: `collapseOneSample(1, 0)` is `"1"` and
`collapseOneSample(4, 0)` is `"1111"`, not strings of `'0'`, and the output
depends on the depth: `collapseOneSample(1, 1)` is `"0"`. -/
theorem collapseOneSample64_not_all_zero :
    collapseOneSample64 1 0 = some "1"
      ∧ collapseOneSample64 4 0 = some "1111"
      ∧ collapseOneSample64 1 1 = some "0" := by
  refine ⟨?_, ?_, ?_⟩
  · decide!
  · decide!
  · decide!

/-! ## Claims on the sample collection and on the CSV sink -/

/-- C7: the slice built by the loop of `main` for `(qubitCount, depth,
sampleCount)` has exactly `sampleCount` entries, every entry equals
`collapseOneSample qubitCount depth` (so each has length `qubitCount` and any
two entries are equal), and it is the collection obtained by calling the
generator `sampleCount` times with no progress reporting. -/
theorem mainLoop_collection (qubitCount depth sampleCount : Nat) :
    (mainLoop qubitCount depth sampleCount).1.length = sampleCount
      ∧ (∀ s ∈ (mainLoop qubitCount depth sampleCount).1,
          s = collapseOneSample qubitCount depth ∧ s.length = qubitCount)
      ∧ (∀ s ∈ (mainLoop qubitCount depth sampleCount).1,
          ∀ t ∈ (mainLoop qubitCount depth sampleCount).1, s = t)
      ∧ (mainLoop qubitCount depth sampleCount).1
          = GenerateCollection qubitCount depth sampleCount := by
  have e := mainLoop_fst qubitCount depth sampleCount
  refine ⟨by rw [e, List.length_replicate], ?_, ?_, by rw [e, GenerateCollection_eq]⟩
  · intro s hs
    rw [e] at hs
    have hs2 := List.eq_of_mem_replicate hs
    refine ⟨hs2, ?_⟩
    rw [hs2]
    change (collapseOneSample qubitCount depth).data.length = qubitCount
    rw [collapseOneSample_data, List.length_replicate]
  · intro s hs t ht
    rw [e] at hs ht
    rw [List.eq_of_mem_replicate hs, List.eq_of_mem_replicate ht]

/-- C8, evaluated on the code: when the second `Write` fails, `writeCSV` still
returns `nil`, while the file holds the header alone instead of the complete
table. -/
theorem writeCSV_nil_on_partial_table :
    (writeCSV secondWriteFails "collapse_rcs_output.csv" ["0"]).err = none
      ∧ (writeCSV secondWriteFails "collapse_rcs_output.csv" ["0"]).file = [["Bitstring"]]
      ∧ (writeCSV secondWriteFails "collapse_rcs_output.csv" ["0"]).file ≠ completeTable ["0"] := by
  refine ⟨rfl, rfl, ?_⟩
  decide

/-- C9: when the file can be created and no write fails, the records that
`writeCSV` hands to the CSV writer are the one-field record `["Bitstring"]`
followed by one one-field record `[b]` for each bitstring `b` of the input, in
the input order; their number is the sample count plus one, all of them are
accepted and `writeCSV` returns `nil`. -/
theorem writeCSV_records (env : SinkBehaviour) (filename : String) (bitstrings : List String)
    (hc : env.createFails filename = false) (hw : ∀ k, env.writeFails k = false) :
    (writeCSV env filename bitstrings).writer.handed
        = ["Bitstring"] :: bitstrings.map (fun b => [b])
      ∧ (writeCSV env filename bitstrings).writer.handed.length = bitstrings.length + 1
      ∧ (writeCSV env filename bitstrings).writer.accepted
        = ["Bitstring"] :: bitstrings.map (fun b => [b])
      ∧ (writeCSV env filename bitstrings).err = none := by
  have h1 : (writeCSV env filename bitstrings).writer.handed
      = ["Bitstring"] :: bitstrings.map (fun b => [b]) := by
    unfold writeCSV
    simp only [hc, Bool.false_eq_true, if_false]
    rw [foldl_Write_handed]
    simp [CsvWriter.Write, CsvWriter.new, hw]
  refine ⟨h1, ?_, ?_, ?_⟩
  · rw [h1]
    simp
  · unfold writeCSV
    simp only [hc, Bool.false_eq_true, if_false]
    rw [foldl_Write_accepted env hw]
    simp [CsvWriter.Write, CsvWriter.new, hw]
  · simp [writeCSV, hc]

/-- Witness of C9: two bitstrings written to a sink in which nothing fails. -/
theorem writeCSV_records_witness :
    (nothingFails.createFails "collapse_rcs_output.csv" = false
        ∧ ∀ k, nothingFails.writeFails k = false)
      ∧ (writeCSV nothingFails "collapse_rcs_output.csv" ["01", "10"]).writer.handed
        = [["Bitstring"], ["01"], ["10"]] :=
  ⟨⟨rfl, fun _ => rfl⟩,
    (writeCSV_records nothingFails "collapse_rcs_output.csv" ["01", "10"] rfl (fun _ => rfl)).1⟩

/-! ## Lemmas on phases and on the initial qubit -/

theorem mk_zero_eq_mul_I (theta : ℝ) : (⟨0, theta⟩ : ℂ) = (theta : ℂ) * Complex.I := by
  apply Complex.ext <;> simp

theorem conj_phase (theta : ℝ) :
    (starRingEnd ℂ) (Complex.exp (⟨0, theta⟩ : ℂ)) = Complex.exp (-((theta : ℂ) * Complex.I)) := by
  rw [← Complex.exp_conj]
  congr 1
  apply Complex.ext <;> simp

theorem phase_mul_conj (theta : ℝ) :
    Complex.exp (⟨0, theta⟩ : ℂ) * (starRingEnd ℂ) (Complex.exp (⟨0, theta⟩ : ℂ)) = 1 := by
  rw [Complex.mul_conj, Complex.normSq_eq_abs, abs_phase]
  simp

theorem phase_add (a b : ℝ) :
    Complex.exp (⟨0, a + b⟩ : ℂ) = Complex.exp (⟨0, a⟩ : ℂ) * Complex.exp (⟨0, b⟩ : ℂ) := by
  rw [← Complex.exp_add]
  congr 1
  apply Complex.ext <;> simp

theorem phase_zero : Complex.exp (⟨0, 0⟩ : ℂ) = 1 := by
  have h : (⟨0, 0⟩ : ℂ) = 0 := rfl
  rw [h, Complex.exp_zero]

theorem initQubit_eq (qCount i : Nat) :
    initQubit qCount i
      = { Alpha := Complex.exp (⟨0, 2 * Real.pi * (i : ℝ) / (qCount : ℝ)⟩ : ℂ)
            / ((Real.sqrt 2 : ℝ) : ℂ),
          Beta := (⟨0, 1⟩ : ℂ) / ((Real.sqrt 2 : ℝ) : ℂ) } := by
  have hn : Qubit.norm
      (Qubit.mk (Complex.exp (⟨0, 2 * Real.pi * (i : ℝ) / (qCount : ℝ)⟩ : ℂ)) (⟨0, 1⟩ : ℂ))
        = Real.sqrt 2 := by
    unfold Qubit.norm
    simp only [abs_phase, abs_mk_zero_one]
    norm_num
  have h2 : Real.sqrt 2 ≠ 0 := by
    rw [Ne, Real.sqrt_eq_zero (by norm_num)]
    norm_num
  unfold initQubit
  rw [Qubit.Normalize_of_ne _ (by rw [hn]; exact h2), hn]

/-! ## Further claims on the kernel -/

/-- C11: for every index `i < qubitCount`, the initialisation loop of
`collapseOneSample` leaves qubit `i` with `Alpha = e^(i*theta)/sqrt(2)`, where
`theta = 2*pi*i/qubitCount`, and `Beta = (0+1i)/sqrt(2)`, so that
`|Alpha|^2 + |Beta|^2 = 1`. -/
theorem initState_qubit (qubitCount i : Nat) (h : i < qubitCount) :
    (initState qubitCount)[i]?
        = some
            { Alpha := Complex.exp
                  (((2 * Real.pi * (i : ℝ) / (qubitCount : ℝ) : ℝ) : ℂ) * Complex.I)
                / ((Real.sqrt 2 : ℝ) : ℂ),
              Beta := Complex.I / ((Real.sqrt 2 : ℝ) : ℂ) }
      ∧ ∀ q, (initState qubitCount)[i]? = some q →
          Complex.abs q.Alpha ^ 2 + Complex.abs q.Beta ^ 2 = 1 := by
  have e : (initState qubitCount)[i]? = some (initQubit qubitCount i) := by
    rw [initState_eq, List.getElem?_map, List.getElem?_range h]
    rfl
  refine ⟨?_, ?_⟩
  · rw [e, initQubit_eq, mk_zero_eq_mul_I]
    rfl
  · intro q hq
    rw [e] at hq
    cases hq
    exact (initQubit_balanced qubitCount i).unit

/-- Witness of C11: qubit 1 of 4. -/
theorem initState_qubit_witness :
    1 < 4
      ∧ (initState 4)[1]?
        = some
            { Alpha := Complex.exp
                  (((2 * Real.pi * ((1 : Nat) : ℝ) / ((4 : Nat) : ℝ) : ℝ) : ℂ) * Complex.I)
                / ((Real.sqrt 2 : ℝ) : ℂ),
              Beta := Complex.I / ((Real.sqrt 2 : ℝ) : ℂ) } :=
  ⟨by decide, (initState_qubit 4 1 (by decide)).1⟩

/-- C13, amended: over exact complex numbers, on a unit-norm state
`ApplyDeterministicGate theta` sets `Alpha` to `Alpha * e^(i*theta)` and `Beta`
to `Beta * e^(-i*theta)` (the normalisation changes nothing) and leaves
`|Alpha|`, `|Beta|` and the value `real(Alpha * conj(Alpha))` that
`CollapseBit` compares with `0.5` as they were. -/
theorem ApplyDeterministicGate_unit_moduli (q : Qubit) (theta : ℝ)
    (h : Complex.abs q.Alpha ^ 2 + Complex.abs q.Beta ^ 2 = 1) :
    (q.ApplyDeterministicGate theta).Alpha
        = q.Alpha * Complex.exp ((theta : ℂ) * Complex.I)
      ∧ (q.ApplyDeterministicGate theta).Beta
        = q.Beta * Complex.exp (-((theta : ℂ) * Complex.I))
      ∧ Qubit.Normalize
          { Alpha := q.Alpha * Complex.exp (⟨0, theta⟩ : ℂ),
            Beta := q.Beta * (starRingEnd ℂ) (Complex.exp (⟨0, theta⟩ : ℂ)) }
        = { Alpha := q.Alpha * Complex.exp (⟨0, theta⟩ : ℂ),
            Beta := q.Beta * (starRingEnd ℂ) (Complex.exp (⟨0, theta⟩ : ℂ)) }
      ∧ Complex.abs (q.ApplyDeterministicGate theta).Alpha = Complex.abs q.Alpha
      ∧ Complex.abs (q.ApplyDeterministicGate theta).Beta = Complex.abs q.Beta
      ∧ ((q.ApplyDeterministicGate theta).Alpha
            * (starRingEnd ℂ) (q.ApplyDeterministicGate theta).Alpha).re
        = (q.Alpha * (starRingEnd ℂ) q.Alpha).re := by
  have e := Qubit.ApplyDeterministicGate_of_unit q theta h
  have ha : Complex.abs (q.ApplyDeterministicGate theta).Alpha = Complex.abs q.Alpha := by
    rw [e]
    simp only [map_mul, abs_phase, mul_one]
  have hb : Complex.abs (q.ApplyDeterministicGate theta).Beta = Complex.abs q.Beta := by
    rw [e]
    simp only [map_mul, Complex.abs_conj, abs_phase, mul_one]
  refine ⟨?_, ?_, ?_, ha, hb, ?_⟩
  · rw [e, mk_zero_eq_mul_I]
  · rw [e, conj_phase]
  · rw [← Qubit.ApplyDeterministicGate_eq, e]
  · rw [Qubit.realPart_eq, Qubit.realPart_eq, ha]

/-- Witness of C13: the state `(3/5, 4/5)` and the angle 1. -/
theorem ApplyDeterministicGate_unit_moduli_witness :
    Complex.abs (3 / 5 : ℂ) ^ 2 + Complex.abs (4 / 5 : ℂ) ^ 2 = 1
      ∧ Complex.abs (Qubit.ApplyDeterministicGate { Alpha := 3 / 5, Beta := 4 / 5 } 1).Alpha
        = Complex.abs (3 / 5 : ℂ) :=
  ⟨by norm_num,
    (ApplyDeterministicGate_unit_moduli { Alpha := 3 / 5, Beta := 4 / 5 } 1
      (by norm_num)).2.2.2.1⟩

/-- C13 as stated fails in `float64`: the state `Alpha = Beta = 0.5 + 0.5i` has
squared norm exactly 1 and collapses to `'0'`; after `ApplyDeterministicGate`
with `theta = 0.4` it collapses to `'1'`. -/
theorem ApplyDeterministicGate64_flips_bit :
    halfHalf.Alpha.re.toRat ^ 2 + halfHalf.Alpha.im.toRat ^ 2
        + (halfHalf.Beta.re.toRat ^ 2 + halfHalf.Beta.im.toRat ^ 2) = 1
      ∧ F64.ofDecimal false 4 (-1) = some theta04
      ∧ halfHalf.CollapseBit = some '0'
      ∧ (halfHalf.ApplyDeterministicGate theta04).bind Qubit64.CollapseBit = some '1' := by
  refine ⟨?_, ?_, ?_, ?_⟩
  · norm_num [halfHalf, F64.half, F64.toRat]
  · decide!
  · decide!
  · decide!

/-- C15: `Normalize` is idempotent on every state, the zero state included, and
leaves every unit-norm state as it is. -/
theorem Normalize_idempotent :
    (∀ q : Qubit, q.Normalize.Normalize = q.Normalize)
      ∧ (Qubit.Normalize (Qubit.Normalize { Alpha := 0, Beta := 0 })
          = Qubit.Normalize { Alpha := 0, Beta := 0 })
      ∧ (∀ q : Qubit, Complex.abs q.Alpha ^ 2 + Complex.abs q.Beta ^ 2 = 1 →
          q.Normalize = q) := by
  have h : ∀ q : Qubit, q.Normalize.Normalize = q.Normalize := fun q =>
    Qubit.Normalize_of_unit q.Normalize (Qubit.normSquared_Normalize q)
  exact ⟨h, h _, Qubit.Normalize_of_unit⟩

/-! ## Lemmas on composed gates -/

theorem Qubit.norm_gate_input (q : Qubit) (theta : ℝ) :
    Qubit.norm
        { Alpha := q.Alpha * Complex.exp (⟨0, theta⟩ : ℂ),
          Beta := q.Beta * (starRingEnd ℂ) (Complex.exp (⟨0, theta⟩ : ℂ)) }
      = q.norm := by
  unfold Qubit.norm
  simp only [map_mul, Complex.abs_conj, abs_phase, mul_one]

theorem Qubit.ApplyDeterministicGate_of_ne (q : Qubit) (theta : ℝ) (h : q.norm ≠ 0) :
    q.ApplyDeterministicGate theta
      = { Alpha := q.Alpha * Complex.exp (⟨0, theta⟩ : ℂ) / (q.norm : ℂ),
          Beta := q.Beta * (starRingEnd ℂ) (Complex.exp (⟨0, theta⟩ : ℂ)) / (q.norm : ℂ) } := by
  rw [Qubit.ApplyDeterministicGate_eq,
    Qubit.Normalize_of_ne _ (by rw [Qubit.norm_gate_input]; exact h), Qubit.norm_gate_input]

theorem Qubit.ApplyDeterministicGate_unit (q : Qubit) (theta : ℝ) :
    Complex.abs (q.ApplyDeterministicGate theta).Alpha ^ 2
      + Complex.abs (q.ApplyDeterministicGate theta).Beta ^ 2 = 1 := by
  rw [Qubit.ApplyDeterministicGate_eq]
  exact Qubit.normSquared_Normalize _

theorem Qubit.gate_gate_of_ne (q : Qubit) (a b : ℝ) (h : q.norm ≠ 0) :
    (q.ApplyDeterministicGate a).ApplyDeterministicGate b
      = q.ApplyDeterministicGate (a + b) := by
  rw [Qubit.ApplyDeterministicGate_of_unit _ b (Qubit.ApplyDeterministicGate_unit q a),
    Qubit.ApplyDeterministicGate_of_ne q a h, Qubit.ApplyDeterministicGate_of_ne q (a + b) h,
    phase_add, map_mul]
  congr 1 <;> ring

theorem Qubit.gate_zero_of_unit (q : Qubit)
    (h : Complex.abs q.Alpha ^ 2 + Complex.abs q.Beta ^ 2 = 1) :
    q.ApplyDeterministicGate 0 = q := by
  rw [Qubit.ApplyDeterministicGate_of_unit q 0 h, phase_zero]
  simp

theorem Qubit.norm_ne_zero_of_unit (q : Qubit)
    (h : Complex.abs q.Alpha ^ 2 + Complex.abs q.Beta ^ 2 = 1) : q.norm ≠ 0 := by
  rw [Qubit.norm_of_unit q h]
  exact one_ne_zero

theorem gate_zero_state (theta : ℝ) :
    Qubit.ApplyDeterministicGate { Alpha := 0, Beta := 0 } theta = { Alpha := 1, Beta := 0 } := by
  rw [Qubit.ApplyDeterministicGate_eq]
  apply Qubit.Normalize_of_eq
  rw [Qubit.norm_eq_zero_iff]
  simp

theorem gate_fallback_state (theta : ℝ) :
    Qubit.ApplyDeterministicGate { Alpha := 1, Beta := 0 } theta
      = { Alpha := Complex.exp (⟨0, theta⟩ : ℂ), Beta := 0 } := by
  rw [Qubit.ApplyDeterministicGate_of_unit _ theta (by simp)]
  simp

/-! ## Claims on composed gates and on matrices -/

/-- C14: on every state whose amplitudes are not both zero, the gate of angle
`a` followed by the gate of angle `b` is the gate of angle `a + b`; so the gate
of angle `-a` undoes the gate of angle `a` on every unit-norm state. On the zero
state the equation holds only when `e^(i*b) = 1`, because the first gate puts
the fallback state in its place. -/
theorem ApplyDeterministicGate_add :
    (∀ (q : Qubit) (a b : ℝ), ¬ (q.Alpha = 0 ∧ q.Beta = 0) →
        (q.ApplyDeterministicGate a).ApplyDeterministicGate b
          = q.ApplyDeterministicGate (a + b))
      ∧ (∀ (q : Qubit) (a : ℝ), Complex.abs q.Alpha ^ 2 + Complex.abs q.Beta ^ 2 = 1 →
          (q.ApplyDeterministicGate a).ApplyDeterministicGate (-a) = q)
      ∧ (∀ a b : ℝ,
          ((Qubit.ApplyDeterministicGate { Alpha := 0, Beta := 0 } a).ApplyDeterministicGate b
              = Qubit.ApplyDeterministicGate { Alpha := 0, Beta := 0 } (a + b)
            ↔ Complex.exp ((b : ℂ) * Complex.I) = 1)) := by
  refine ⟨?_, ?_, ?_⟩
  · intro q a b h
    exact Qubit.gate_gate_of_ne q a b (fun h0 => h ((Qubit.norm_eq_zero_iff q).1 h0))
  · intro q a h
    rw [Qubit.gate_gate_of_ne q a (-a) (Qubit.norm_ne_zero_of_unit q h), add_neg_cancel,
      Qubit.gate_zero_of_unit q h]
  · intro a b
    rw [gate_zero_state, gate_zero_state, gate_fallback_state, mk_zero_eq_mul_I]
    constructor
    · intro h
      exact congrArg Qubit.Alpha h
    · intro h
      rw [h]

/-- Witness of C14: the state `(2, 0)`, which is not of unit norm, and the
angles 1 and 2. -/
theorem ApplyDeterministicGate_add_witness :
    ¬ ((2 : ℂ) = 0 ∧ (0 : ℂ) = 0)
      ∧ (Qubit.ApplyDeterministicGate { Alpha := 2, Beta := 0 } 1).ApplyDeterministicGate 2
        = Qubit.ApplyDeterministicGate { Alpha := 2, Beta := 0 } (1 + 2) :=
  ⟨by norm_num, ApplyDeterministicGate_add.1 { Alpha := 2, Beta := 0 } 1 2 (by norm_num)⟩

theorem conj_phase_mul (theta : ℝ) :
    (starRingEnd ℂ) (Complex.exp (⟨0, theta⟩ : ℂ)) * Complex.exp (⟨0, theta⟩ : ℂ) = 1 := by
  rw [mul_comm, phase_mul_conj]

theorem gateMatrix_unitary (theta : ℝ) : gateMatrix theta ∈ Matrix.unitaryGroup (Fin 2) ℂ := by
  rw [Matrix.mem_unitaryGroup_iff]
  ext i j
  fin_cases i <;> fin_cases j <;>
    simp [gateMatrix, Matrix.mul_apply, Fin.sum_univ_two, Matrix.star_apply,
      phase_mul_conj, conj_phase_mul]

theorem applyMatrix_gateMatrix (theta : ℝ) (q : Qubit) :
    applyMatrix (gateMatrix theta) q
      = { Alpha := q.Alpha * Complex.exp (⟨0, theta⟩ : ℂ),
          Beta := q.Beta * (starRingEnd ℂ) (Complex.exp (⟨0, theta⟩ : ℂ)) } := by
  unfold applyMatrix gateMatrix
  congr 1 <;> simp [mul_comm]

theorem gate_eq_applyMatrix (theta : ℝ) (q : Qubit)
    (h : Complex.abs q.Alpha ^ 2 + Complex.abs q.Beta ^ 2 = 1) :
    q.ApplyDeterministicGate theta = applyMatrix (gateMatrix theta) q := by
  rw [applyMatrix_gateMatrix, Qubit.ApplyDeterministicGate_of_unit q theta h]

/-- C12 as stated fails: there is no angle `theta` for which no unitary 2x2
matrix reproduces `ApplyDeterministicGate theta` on the unit-norm states. -/
theorem gate_unitary_counterexample :
    ¬ ∃ theta : ℝ, ¬ ∃ U : Matrix (Fin 2) (Fin 2) ℂ,
        U ∈ Matrix.unitaryGroup (Fin 2) ℂ
          ∧ ∀ q : Qubit, Complex.abs q.Alpha ^ 2 + Complex.abs q.Beta ^ 2 = 1 →
              q.ApplyDeterministicGate theta = applyMatrix U q := by
  rintro ⟨theta, h⟩
  exact h ⟨gateMatrix theta, gateMatrix_unitary theta, gate_eq_applyMatrix theta⟩

/-- C12, amended: for every angle `theta`, the diagonal matrix with entries
`e^(i*theta)` and `e^(-i*theta)` is unitary and, applied to `(Alpha, Beta)`, gives
the state after `ApplyDeterministicGate theta` for every unit-norm state; it is
over all states, unit-norm or not, that no 2x2 matrix reproduces the gate. -/
theorem gate_unitary_on_unit_states (theta : ℝ) :
    gateMatrix theta ∈ Matrix.unitaryGroup (Fin 2) ℂ
      ∧ gateMatrix theta 0 0 = Complex.exp ((theta : ℂ) * Complex.I)
      ∧ gateMatrix theta 1 1 = Complex.exp (-((theta : ℂ) * Complex.I))
      ∧ gateMatrix theta 0 1 = 0
      ∧ gateMatrix theta 1 0 = 0
      ∧ (∀ q : Qubit, Complex.abs q.Alpha ^ 2 + Complex.abs q.Beta ^ 2 = 1 →
          q.ApplyDeterministicGate theta = applyMatrix (gateMatrix theta) q)
      ∧ ¬ ∃ U : Matrix (Fin 2) (Fin 2) ℂ,
          ∀ q : Qubit, q.ApplyDeterministicGate theta = applyMatrix U q := by
  refine ⟨gateMatrix_unitary theta, ?_, ?_, ?_, ?_, gate_eq_applyMatrix theta, ?_⟩
  · simp [gateMatrix, mk_zero_eq_mul_I]
  · simp [gateMatrix, conj_phase]
  · simp [gateMatrix]
  · simp [gateMatrix]
  · rintro ⟨U, hU⟩
    have h := hU { Alpha := 0, Beta := 0 }
    rw [gate_zero_state] at h
    have h1 := congrArg Qubit.Alpha h
    simp [applyMatrix] at h1

end CollapseRCS
